import Mathlib

/-!
Shallow embedding of the chunking / indexing / query core of
`src/main.py` (class `MedlinePlusVectorizer`), together with proofs about
the claims of the specification.

Modelling conventions:
* Python strings are `List Char`; ASCII `str.isspace` / regex `\s` are
  modelled by `pyIsSpace` (the source data is ASCII text).
* Python machine integers in this file are all non-negative in every
  reachable state we reason about, so they are modelled as `Nat`.  The
  single subtraction in the source, `chunk_size - chunk_overlap`
  (line 345 of `src/main.py`), is truncated at zero by `Nat`; for
  `chunk_overlap ≤ chunk_size` this agrees exactly with Python.  For
  `chunk_overlap > chunk_size` the Python loop never returns (the start
  index drifts below zero and the loop either cycles or dies on an
  `IndexError` in the whitespace test, since the stripped content never
  lets the index climb back past its last, non-space, character), and
  the model also never returns (`none` at every fuel), so both agree on
  every observable result of `create_chunks`.
* The `while` loop of `create_chunks` is given explicit fuel and yields
  `Option`: `none` means the loop has not returned (non-termination /
  abnormal exit), `some chunks` is a normal return.
* Each call of `uuid.uuid4().hex[:8]` is an oracle: a function from the
  (document index, chunk index) of the call site to the produced suffix.
  Every concrete execution of the Python code is one such function.
* The vector store behind `collection.add` is an oracle `ok` telling
  whether a batch insertion succeeds or raises; `create_vector_db`
  returns the list of batches whose insertion was attempted, which is
  the observable behaviour of the write loop.
-/

namespace RagMain

/-- ASCII `str.isspace` (and the ASCII part of regex `\s`). -/
def pyIsSpace (c : Char) : Bool :=
  c = ' ' || c = '\t' || c = '\n' || c = '\r' || c = '\x0b' || c = '\x0c'

/-- Python `str.strip()`: drop leading and trailing whitespace. -/
def pyStrip (l : List Char) : List Char :=
  ((l.dropWhile pyIsSpace).reverse.dropWhile pyIsSpace).reverse

/-- Lines 347-349 of `src/main.py`:
`while start_idx < len(content) and content[start_idx].isspace(): start_idx += 1`. -/
def skipWs (content : List Char) (i : Nat) : Nat :=
  i + ((content.drop i).takeWhile pyIsSpace).length

/-- Character class `[A-Za-z\s]` of the section regex (line 330). -/
def sectionClass (c : Char) : Bool :=
  ('A' ≤ c && c ≤ 'Z') || ('a' ≤ c && c ≤ 'z') || pyIsSpace c

/-- Greedy backtracking of `([A-Za-z\s]+)` followed by `\n`: the largest
group length `g ≥ 1`, at most the length of the maximal class run, such
that the character at index `g` is a newline.  The first argument is the
candidate length to try; lengths are tried downwards. -/
def greedyNl (chunk : List Char) : Nat → Option Nat
  | 0 => none
  | g + 1 =>
    if chunk[g + 1]? = some '\n' then some (g + 1) else greedyNl chunk g

/-- Model of `re.search(r'^([A-Za-z\s]+)\n', chunk_text)` followed by
`.group(1).strip()` (lines 330-332). -/
def sectionOf (chunk : List Char) : Option (List Char) :=
  match greedyNl chunk (chunk.takeWhile sectionClass).length with
  | some g => some (pyStrip (chunk.take g))
  | none => none

/-- The metadata dictionary built at lines 322-332. -/
structure ChunkMeta where
  source : List Char
  chunk_id : Nat
  start_char : Nat
  end_char : Nat
  sectionTitle : Option (List Char)
  deriving DecidableEq

/-- The chunk document built at lines 335-339. -/
structure Chunk where
  id : List Char
  text : List Char
  metadata : ChunkMeta
  deriving DecidableEq

/-- Model of `f"{filename}_chunk_{chunk_id}_{uuid.uuid4().hex[:8]}"` (line 336),
with the uuid suffix supplied as an argument. -/
def mkId (source : List Char) (cid : Nat) (suffix : List Char) : List Char :=
  source ++ "_chunk_".data ++ (Nat.repr cid).data ++ "_".data ++ suffix

/-- The chunk document built by one iteration of the windowing loop
(lines 317-339): window `[start_idx, min(start_idx+size, len))`, its
text, metadata and identifier. -/
def mkChunkAt (size : Nat) (source content : List Char) (σ : Nat → List Char)
    (start_idx chunk_id : Nat) : Chunk :=
  let end_idx := min (start_idx + size) content.length
  let chunk_text := (content.drop start_idx).take (end_idx - start_idx)
  { id := mkId source chunk_id (σ chunk_id)
    text := chunk_text
    metadata :=
      { source := source
        chunk_id := chunk_id
        start_char := start_idx
        end_char := end_idx
        sectionTitle := sectionOf chunk_text } }

/-- The windowing loop of `create_chunks` (lines 316-349), for a single
document with name `source` and (already stripped) content `content`.
`σ cid` is the uuid suffix drawn when chunk number `cid` is created. -/
def chunkLoop (size overlap : Nat) (source content : List Char)
    (σ : Nat → List Char) : Nat → Nat → Nat → Option (List Chunk)
  | 0, start_idx, _ =>
    if start_idx < content.length then none else some []
  | fuel + 1, start_idx, chunk_id =>
    if start_idx < content.length then
      match chunkLoop size overlap source content σ fuel
          (skipWs content (start_idx + (size - overlap))) (chunk_id + 1) with
      | some cs => some (mkChunkAt size source content σ start_idx chunk_id :: cs)
      | none => none
    else some []

/-- Literal `"--- START OF DOCUMENT: "` before the capture group of
the split regex at line 298. -/
def startMark : List Char := "--- START OF DOCUMENT: ".data

/-- Literal `"--- END OF DOCUMENT: "` of the removal regex at
line 310. -/
def endMark : List Char := "--- END OF DOCUMENT: ".data

/-- Literal `" ---"` closing both marker regexes. -/
def markClose : List Char := " ---".data

/-- Non-greedy `(.+?)` directly followed by the literal `lit₂`: the
shortest non-empty newline-free body such that `lit₂` follows.  Returns
the body and the remainder after `lit₂`. -/
def shortestBody (lit₂ : List Char) : List Char → Option (List Char × List Char)
  | [] => none
  | c :: rest =>
    if c = '\n' then none
    else if lit₂.isPrefixOf rest then some ([c], rest.drop lit₂.length)
    else
      match shortestBody lit₂ rest with
      | some (b, r) => some (c :: b, r)
      | none => none

/-- Match `lit₁ (.+?) lit₂` at the head of `l`. -/
def matchMark (lit₁ lit₂ l : List Char) : Option (List Char × List Char) :=
  if lit₁.isPrefixOf l then shortestBody lit₂ (l.drop lit₁.length) else none

/-- Leftmost match of `lit₁ (.+?) lit₂` in `l`: the text before the
match, the captured body, and the remainder after the match. -/
def searchMark (lit₁ lit₂ : List Char) : List Char → Option (List Char × List Char × List Char)
  | [] => none
  | c :: rest =>
    match matchMark lit₁ lit₂ (c :: rest) with
    | some (b, r) => some ([], b, r)
    | none =>
      match searchMark lit₁ lit₂ rest with
      | some (p, b, r) => some (c :: p, b, r)
      | none => none

theorem shortestBody_spec (lit₂ : List Char) :
    ∀ l b r, shortestBody lit₂ l = some (b, r) → l = b ++ lit₂ ++ r ∧ b ≠ [] := by
  intro l
  induction l with
  | nil => intro b r h; simp [shortestBody] at h
  | cons c rest ih =>
    intro b r h
    simp only [shortestBody] at h
    split at h
    · exact absurd h (by simp)
    · split at h
      · rename_i hpre
        rcases List.isPrefixOf_iff_prefix.mp hpre with ⟨t, ht⟩
        simp only [Option.some.injEq, Prod.mk.injEq] at h
        obtain ⟨hb, hr⟩ := h
        subst hb hr
        constructor
        · have : rest.drop lit₂.length = t := by
            rw [← ht, List.drop_left]
          rw [this]
          simp [← ht]
        · simp
      · rcases hrec : shortestBody lit₂ rest with _ | ⟨b', r'⟩
        · rw [hrec] at h; simp at h
        · rw [hrec] at h
          simp only [Option.some.injEq, Prod.mk.injEq] at h
          obtain ⟨hb, hr⟩ := h
          subst hb hr
          obtain ⟨hspec, -⟩ := ih b' r' hrec
          constructor
          · simp [hspec]
          · simp

theorem matchMark_spec (lit₁ lit₂ l b r : List Char)
    (h : matchMark lit₁ lit₂ l = some (b, r)) :
    l = lit₁ ++ b ++ lit₂ ++ r ∧ b ≠ [] := by
  simp only [matchMark] at h
  split at h
  · rename_i hpre
    rcases List.isPrefixOf_iff_prefix.mp hpre with ⟨t, ht⟩
    have hdrop : l.drop lit₁.length = t := by rw [← ht, List.drop_left]
    rw [hdrop] at h
    obtain ⟨hspec, hb⟩ := shortestBody_spec lit₂ t b r h
    refine ⟨?_, hb⟩
    rw [← ht, hspec]
    simp
  · exact absurd h (by simp)

theorem searchMark_spec (lit₁ lit₂ : List Char) :
    ∀ l p b r, searchMark lit₁ lit₂ l = some (p, b, r) →
      l = p ++ lit₁ ++ b ++ lit₂ ++ r ∧ b ≠ [] := by
  intro l
  induction l with
  | nil => intro p b r h; simp [searchMark] at h
  | cons c rest ih =>
    intro p b r h
    simp only [searchMark] at h
    rcases hm : matchMark lit₁ lit₂ (c :: rest) with _ | ⟨b', r'⟩
    · rw [hm] at h
      rcases hs : searchMark lit₁ lit₂ rest with _ | ⟨⟨p', b', r'⟩⟩
      · rw [hs] at h; simp at h
      · rw [hs] at h
        simp only [Option.some.injEq, Prod.mk.injEq] at h
        obtain ⟨hp, hb, hr⟩ := h
        subst hp hb hr
        obtain ⟨hspec, hbne⟩ := ih p' b' r' hs
        exact ⟨by simp [hspec], hbne⟩
    · rw [hm] at h
      simp only [Option.some.injEq, Prod.mk.injEq] at h
      obtain ⟨hp, hb, hr⟩ := h
      subst hp hb hr
      obtain ⟨hspec, hbne⟩ := matchMark_spec lit₁ lit₂ (c :: rest) b' r' hm
      exact ⟨by simpa using hspec, hbne⟩

theorem searchMark_rem_lt (lit₁ lit₂ l p b r : List Char)
    (h : searchMark lit₁ lit₂ l = some (p, b, r)) : r.length < l.length := by
  obtain ⟨hspec, hb⟩ := searchMark_spec lit₁ lit₂ l p b r h
  have : l.length = p.length + lit₁.length + b.length + lit₂.length + r.length := by
    simp [hspec]; omega
  have hb1 : 0 < b.length := List.length_pos.mpr hb
  omega

/-- Fuelled body of `reSubEnd`; each removal strictly shortens the text
(`searchMark_rem_lt`), so fuel `l.length + 1` always suffices. -/
def reSubEndF : Nat → List Char → List Char
  | 0, l => l
  | fuel + 1, l =>
    match searchMark endMark markClose l with
    | some (pre, _, rem) => pre ++ reSubEndF fuel rem
    | none => l

/-- Model of `re.sub(r'--- END OF DOCUMENT: .+? ---', '', content)` (line 310):
every leftmost-shortest match of the END marker is removed. -/
def reSubEnd (l : List Char) : List Char :=
  reSubEndF (l.length + 1) l

/-- Fuelled body of `reSplitStart`; each match strictly shortens the
remainder, so fuel `l.length + 1` always suffices. -/
def reSplitStartF : Nat → List Char → List (List Char)
  | 0, l => [l]
  | fuel + 1, l =>
    match searchMark startMark markClose l with
    | some (pre, body, rem) => pre :: body :: reSplitStartF fuel rem
    | none => [l]

/-- Model of `re.split(r'--- START OF DOCUMENT: (.+?) ---', text)` (line 298):
the pieces between matches interleaved with the captured groups. -/
def reSplitStart (l : List Char) : List (List Char) :=
  reSplitStartF (l.length + 1) l

/-- Lines 304-307: the split list is consumed in pairs
`(filename, content)`; a trailing unpaired element is dropped. -/
def pairUp : List (List Char) → List (List Char × List Char)
  | f :: c :: rest => (f, c) :: pairUp rest
  | _ => []

/-- Lines 298-307: the `(filename, content)` pairs of the combined text
(`documents[1:]` processed two at a time). -/
def docPairs (text : List Char) : List (List Char × List Char) :=
  pairUp ((reSplitStart text).drop 1)

/-- Lines 306-349 for one `(filename, content)` pair: strip the
filename, delete END markers from the content and strip it, then run the
windowing loop from `start_idx = 0`, `chunk_id = 0`. -/
def chunkDocument (size overlap : Nat) (filename content : List Char)
    (σ : Nat → List Char) (fuel : Nat) : Option (List Chunk) :=
  chunkLoop size overlap (pyStrip filename) (pyStrip (reSubEnd content)) σ fuel 0 0

/-- The loop of line 304 over all document pairs, accumulating the
chunks of every document in order.  `d` is the position of the pair in
the list, used only to address the uuid oracle. -/
def chunkCorpus (size overlap : Nat) (σ : Nat → Nat → List Char) (fuel : Nat) :
    Nat → List (List Char × List Char) → Option (List Chunk)
  | _, [] => some []
  | d, (f, c) :: rest =>
    match chunkDocument size overlap f c (σ d) fuel with
    | none => none
    | some cs =>
      match chunkCorpus size overlap σ fuel (d + 1) rest with
      | none => none
      | some css => some (cs ++ css)

/-- Model of `MedlinePlusVectorizer.create_chunks` (lines 284-352) as a function
of the configuration, the uuid oracle, the combined text and the loop
fuel. -/
def create_chunks (size overlap : Nat) (σ : Nat → Nat → List Char)
    (text : List Char) (fuel : Nat) : Option (List Chunk) :=
  chunkCorpus size overlap σ fuel 0 (docPairs text)

/-- The batch slices `chunks[i:i+batch_size]` for `i = 0, 100, 200, ...`
(lines 377-379); the first argument is fuel bounding the number of
slices, the second the batch size. -/
def batchSlices (bs : Nat) : Nat → List Chunk → List (List Chunk)
  | 0, _ => []
  | _, [] => []
  | fuel + 1, l => l.take bs :: batchSlices bs fuel (l.drop bs)

/-- The batches submitted by `create_vector_db`, with `batch_size = 100`
(line 377). -/
def pyBatches (chunks : List Chunk) : List (List Chunk) :=
  batchSlices 100 chunks.length chunks

/-- The write loop of lines 378-386 under the single `try/except` of
lines 364-392: batches are attempted in order, and a raising
`collection.add` aborts the loop (the exception is caught outside it).
`ok b` tells whether inserting batch `b` succeeds.  Returns the batches
whose insertion was attempted. -/
def attemptBatches (ok : List Chunk → Bool) : List (List Chunk) → List (List Chunk)
  | [] => []
  | b :: rest => b :: (if ok b then attemptBatches ok rest else [])

/-- Model of `MedlinePlusVectorizer.create_vector_db` (lines 354-392), observed
through the sequence of attempted batch insertions. -/
def create_vector_db (ok : List Chunk → Bool) (chunks : List Chunk) : List (List Chunk) :=
  attemptBatches ok (pyBatches chunks)

/-- The similarity printed by `query_example` (line 437): `1 - distance`,
with no normalisation and no clipping. -/
def similarity (distance : ℚ) : ℚ := 1 - distance

/-! ### Basic lemmas about the helpers -/

theorem head?_dropWhile_false (p : Char → Bool) :
    ∀ (l : List Char) (c : Char), (l.dropWhile p).head? = some c → p c = false := by
  intro l
  induction l with
  | nil => intro c h; simp [List.dropWhile] at h
  | cons a t ih =>
    intro c h
    by_cases hp : p a
    · rw [List.dropWhile_cons_of_pos hp] at h
      exact ih c h
    · rw [List.dropWhile_cons_of_neg hp] at h
      simp only [List.head?_cons, Option.some.injEq] at h
      subst h
      simpa using hp

theorem pyStrip_head (l : List Char) (c : Char)
    (h : (pyStrip l).head? = some c) : pyIsSpace c = false := by
  unfold pyStrip at h
  set m := l.dropWhile pyIsSpace with hm
  have hsuf : m.reverse.dropWhile pyIsSpace <:+ m.reverse := List.dropWhile_suffix _
  rcases hsuf with ⟨u, hu⟩
  have hmeq : m = (m.reverse.dropWhile pyIsSpace).reverse ++ u.reverse := by
    have := congrArg List.reverse hu
    simpa [List.reverse_append] using this.symm
  rcases hrev : (m.reverse.dropWhile pyIsSpace).reverse with _ | ⟨c', t⟩
  · rw [hrev] at h; simp at h
  · rw [hrev] at h
    simp only [List.head?_cons, Option.some.injEq] at h
    have hhead : (l.dropWhile pyIsSpace).head? = some c' := by
      rw [← hm, hmeq, hrev]; simp
    have hf := head?_dropWhile_false pyIsSpace l c' hhead
    rw [← h]
    exact hf

theorem skipWs_le (content : List Char) (i : Nat) : i ≤ skipWs content i :=
  Nat.le_add_right _ _

theorem drop_length_takeWhile (p : Char → Bool) (l : List Char) :
    l.drop (l.takeWhile p).length = l.dropWhile p := by
  have h := List.drop_left (l.takeWhile p) (l.dropWhile p)
  rwa [List.takeWhile_append_dropWhile] at h

theorem drop_skipWs (content : List Char) (i : Nat) :
    content.drop (skipWs content i) = (content.drop i).dropWhile pyIsSpace := by
  unfold skipWs
  have h1 : content.drop
      (i + ((content.drop i).takeWhile pyIsSpace).length)
      = (content.drop i).drop ((content.drop i).takeWhile pyIsSpace).length := by
    rw [← List.drop_drop]
  rw [h1, drop_length_takeWhile]

theorem skipWs_head (content : List Char) (i : Nat) (c : Char)
    (h : (content.drop (skipWs content i)).head? = some c) : pyIsSpace c = false := by
  rw [drop_skipWs] at h
  exact head?_dropWhile_false pyIsSpace _ c h

theorem chunkLoop_of_notLt (size overlap : Nat) (source content : List Char)
    (σ : Nat → List Char) (fuel start cid : Nat)
    (h : ¬ start < content.length) :
    chunkLoop size overlap source content σ fuel start cid = some [] := by
  cases fuel with
  | zero => simp [chunkLoop, h]
  | succ n => simp [chunkLoop, h]

theorem reSubEndF_length_le : ∀ (fuel : Nat) (l : List Char),
    (reSubEndF fuel l).length ≤ l.length := by
  intro fuel
  induction fuel with
  | zero => intro l; simp [reSubEndF]
  | succ n ih =>
    intro l
    rcases hs : searchMark endMark markClose l with _ | ⟨⟨pre, b, rem⟩⟩
    · simp [reSubEndF, hs]
    · simp only [reSubEndF, hs]
      obtain ⟨hspec, -⟩ := searchMark_spec endMark markClose l pre b rem hs
      have hlen : l.length
          = pre.length + endMark.length + b.length + markClose.length + rem.length := by
        simp [hspec]; omega
      have := ih rem
      simp only [List.length_append]
      omega

theorem reSubEnd_length_le (l : List Char) : (reSubEnd l).length ≤ l.length :=
  reSubEndF_length_le _ l

theorem pyStrip_length_le (l : List Char) : (pyStrip l).length ≤ l.length := by
  unfold pyStrip
  have h1 : (l.dropWhile pyIsSpace).length ≤ l.length :=
    (List.dropWhile_suffix _).length_le
  have h2 : ((l.dropWhile pyIsSpace).reverse.dropWhile pyIsSpace).length
      ≤ (l.dropWhile pyIsSpace).reverse.length :=
    (List.dropWhile_suffix _).length_le
  simp only [List.length_reverse] at h2 ⊢
  omega

/-! ### One-step and termination lemmas for the windowing loop -/

theorem chunkLoop_succ_of_lt (size overlap : Nat) (source content : List Char)
    (σ : Nat → List Char) (fuel start cid : Nat) (hlt : start < content.length) :
    chunkLoop size overlap source content σ (fuel + 1) start cid
      = match chunkLoop size overlap source content σ fuel
          (skipWs content (start + (size - overlap))) (cid + 1) with
        | some cs => some (mkChunkAt size source content σ start cid :: cs)
        | none => none := by
  simp [chunkLoop, hlt]

/-- If the combined advance-and-skip makes no progress at a reachable
position, the loop never returns, whatever the fuel. -/
theorem chunkLoop_stuck (size overlap : Nat) (source content : List Char)
    (σ : Nat → List Char) (start : Nat)
    (hstuck : skipWs content (start + (size - overlap)) = start)
    (hlt : start < content.length) :
    ∀ (fuel cid : Nat), chunkLoop size overlap source content σ fuel start cid = none := by
  intro fuel
  induction fuel with
  | zero => intro cid; simp [chunkLoop, hlt]
  | succ n ih =>
    intro cid
    rw [chunkLoop_succ_of_lt size overlap source content σ n start cid hlt, hstuck,
      ih (cid + 1)]

/-- With a valid configuration the loop terminates: the start index
strictly increases each iteration, so fuel `content.length - start + 1`
suffices. -/
theorem chunkLoop_isSome (size overlap : Nat) (source content : List Char)
    (σ : Nat → List Char) (hov : overlap < size) :
    ∀ (fuel start cid : Nat), content.length - start < fuel →
      (chunkLoop size overlap source content σ fuel start cid).isSome = true := by
  intro fuel
  induction fuel with
  | zero => intro start cid h; omega
  | succ n ih =>
    intro start cid h
    by_cases hlt : start < content.length
    · rw [chunkLoop_succ_of_lt size overlap source content σ n start cid hlt]
      have hnext : start + 1 ≤ skipWs content (start + (size - overlap)) := by
        have h1 : 1 ≤ size - overlap := by omega
        have h2 := skipWs_le content (start + (size - overlap))
        omega
      have hrec := ih (skipWs content (start + (size - overlap))) (cid + 1) (by omega)
      rcases hr : chunkLoop size overlap source content σ n
          (skipWs content (start + (size - overlap))) (cid + 1) with _ | cs
      · rw [hr] at hrec; simp at hrec
      · simp
    · rw [chunkLoop_of_notLt size overlap source content σ (n + 1) start cid hlt]
      simp

/-! ### Claim C1 -/

/-- Claim C1: the specification demands that `chunk_overlap >= chunk_size`
raise a `ConfigurationError` before any chunking begins.  The code
performs no validation at all: neither `__init__` (lines 226-251) nor
`create_chunks` checks the bound, and no `ConfigurationError` exists in
the program.  Instead, with `chunk_size = 1`, `chunk_overlap = 1` the
windowing loop makes no progress on the two-character document `"ab"`
and never returns, at any fuel: the chunker hangs instead of raising. -/
theorem claim_C1_no_validation_loop_never_returns
    (σ : Nat → List Char) (fuel : Nat) :
    chunkDocument 1 1 "doc".data "ab".data σ fuel = none := by
  unfold chunkDocument
  have h1 : pyStrip (reSubEnd "ab".data) = "ab".data := by decide
  rw [h1]
  exact chunkLoop_stuck 1 1 (pyStrip "doc".data) "ab".data σ 0 (by decide) (by decide)
    fuel 0

/-! ### Claim C3 -/

/-- Claim C3, counterexample: with the valid configuration
`chunk_size = 10`, `chunk_overlap = 8` and a document whose non-empty
text `"hello"` is shorter than `chunk_size`, `create_chunks` produces
three chunks (`"hello"`, `"llo"`, `"o"`), not exactly one: after the
first window covers the whole text, the start index advances only by
`chunk_size - chunk_overlap = 2 < 5`, so further windows are emitted. -/
theorem claim_C3_counterexample :
    (chunkDocument 10 8 "doc".data "hello".data (fun _ => "aaaaaaaa".data) 6).map
        (List.map Chunk.text)
      = some ["hello".data, "llo".data, "o".data] := by
  decide

/-- Claim C3, amended: for every configuration and every document whose
(marker-free, stripped) text is non-empty and no longer than
`chunk_size - chunk_overlap`, chunking produces exactly one chunk, and
that chunk's text equals the document's entire text.  (The claim's bound
`len(text) < chunk_size` is not enough: whenever
`chunk_size - chunk_overlap < len(text) < chunk_size` the first chunk
already spans the whole text but further tail chunks follow.) -/
theorem claim_C3_short_document_single_chunk
    (size overlap : Nat) (f body : List Char) (σ : Nat → List Char)
    (hclean : pyStrip (reSubEnd body) = body)
    (hpos : 0 < body.length)
    (hshort : body.length ≤ size - overlap) :
    (chunkDocument size overlap f body σ (body.length + 1)).map (List.map Chunk.text)
      = some [body] := by
  unfold chunkDocument
  rw [hclean]
  have hlt : (0 : Nat) < body.length := hpos
  rw [chunkLoop_succ_of_lt size overlap (pyStrip f) body σ body.length 0 0 hlt]
  have hstop : ¬ skipWs body (0 + (size - overlap)) < body.length := by
    have h1 := skipWs_le body (0 + (size - overlap))
    omega
  rw [chunkLoop_of_notLt size overlap (pyStrip f) body σ body.length _ 1 hstop]
  have hmin : min (0 + size) body.length = body.length := by
    have : body.length ≤ size := le_trans hshort (Nat.sub_le _ _)
    omega
  simp [mkChunkAt, hmin]
  exact le_trans hshort (Nat.sub_le _ _)

/-- Claim C3, witness for the amended theorem at `chunk_size = 10`,
`chunk_overlap = 5`, document text `"hi"`. -/
theorem claim_C3_witness :
    (chunkDocument 10 5 "doc".data "hi".data (fun _ => "aaaaaaaa".data)
        ("hi".data.length + 1)).map (List.map Chunk.text)
      = some ["hi".data] :=
  claim_C3_short_document_single_chunk 10 5 "doc".data "hi".data _
    (by decide) (by decide) (by decide)

/-! ### Claim C5 -/

/-- Claim C5: for every valid configuration
(`0 ≤ chunk_overlap < chunk_size`) and every document text, the loop's
start position strictly increases every iteration (the advance by
`chunk_size - chunk_overlap ≥ 1` followed by the whitespace skip), so
chunking terminates; fuel `len(text) + 1` always suffices for the loop
to return. -/
theorem claim_C5_valid_config_terminates
    (size overlap : Nat) (f body : List Char) (σ : Nat → List Char)
    (hov : overlap < size) :
    (chunkDocument size overlap f body σ (body.length + 1)).isSome = true := by
  unfold chunkDocument
  apply chunkLoop_isSome size overlap (pyStrip f) (pyStrip (reSubEnd body)) σ hov
  have h1 := pyStrip_length_le (reSubEnd body)
  have h2 := reSubEnd_length_le body
  omega

/-- Claim C5, witness at `chunk_size = 2`, `chunk_overlap = 1`, document
text `"abc"`. -/
theorem claim_C5_witness :
    (chunkDocument 2 1 "doc".data "abc".data (fun _ => "aaaaaaaa".data)
        ("abc".data.length + 1)).isSome = true :=
  claim_C5_valid_config_terminates 2 1 "doc".data "abc".data _ (by decide)

/-! ### Membership lemmas: every produced chunk is a window chunk -/

/-- Every chunk in a result of the windowing loop is `mkChunkAt` at some
reachable position: a position below the content length that is either
the initial start or the result of a whitespace skip, with a chunk index
at least the initial one. -/
theorem chunkLoop_mem (size overlap : Nat) (source content : List Char)
    (σ : Nat → List Char) :
    ∀ (fuel start cid : Nat) (cs : List Chunk),
      chunkLoop size overlap source content σ fuel start cid = some cs →
      ∀ c ∈ cs, ∃ s i, c = mkChunkAt size source content σ s i ∧
        s < content.length ∧ cid ≤ i ∧
        (s = start ∨ ∃ j, s = skipWs content j) := by
  intro fuel
  induction fuel with
  | zero =>
    intro start cid cs h c hc
    by_cases hlt : start < content.length
    · simp [chunkLoop, hlt] at h
    · simp [chunkLoop, hlt] at h
      subst h
      simp at hc
  | succ n ih =>
    intro start cid cs h c hc
    by_cases hlt : start < content.length
    · rw [chunkLoop_succ_of_lt size overlap source content σ n start cid hlt] at h
      rcases hr : chunkLoop size overlap source content σ n
          (skipWs content (start + (size - overlap))) (cid + 1) with _ | cs'
      · rw [hr] at h; simp at h
      · rw [hr] at h
        simp only [Option.some.injEq] at h
        subst h
        rcases List.mem_cons.mp hc with hc | hc
        · exact ⟨start, cid, hc, hlt, le_refl _, Or.inl rfl⟩
        · obtain ⟨s, i, hcs, hslen, hi, hor⟩ := ih _ (cid + 1) cs' hr c hc
          refine ⟨s, i, hcs, hslen, by omega, ?_⟩
          rcases hor with hor | hor
          · exact Or.inr ⟨start + (size - overlap), hor⟩
          · exact Or.inr hor
    · rw [chunkLoop_of_notLt size overlap source content σ (n + 1) start cid hlt] at h
      simp only [Option.some.injEq] at h
      subst h
      simp at hc

/-- Every chunk of the corpus loop comes from chunking one of the
document pairs. -/
theorem chunkCorpus_mem (size overlap : Nat) (σ : Nat → Nat → List Char) (fuel : Nat) :
    ∀ (pairs : List (List Char × List Char)) (d : Nat) (cs : List Chunk),
      chunkCorpus size overlap σ fuel d pairs = some cs →
      ∀ c ∈ cs, ∃ p ∈ pairs, ∃ d' cs',
        chunkDocument size overlap p.1 p.2 (σ d') fuel = some cs' ∧ c ∈ cs' := by
  intro pairs
  induction pairs with
  | nil =>
    intro d cs h c hc
    simp only [chunkCorpus, Option.some.injEq] at h
    subst h
    simp at hc
  | cons p rest ih =>
    intro d cs h c hc
    rcases p with ⟨f, co⟩
    simp only [chunkCorpus] at h
    rcases hd : chunkDocument size overlap f co (σ d) fuel with _ | cs₁
    · rw [hd] at h; simp at h
    · rw [hd] at h
      rcases hrest : chunkCorpus size overlap σ fuel (d + 1) rest with _ | cs₂
      · rw [hrest] at h; simp at h
      · rw [hrest] at h
        simp only [Option.some.injEq] at h
        subst h
        rcases List.mem_append.mp hc with hc | hc
        · exact ⟨(f, co), by simp, d, cs₁, hd, hc⟩
        · obtain ⟨p', hp', d', cs', hdoc, hmem⟩ := ih (d + 1) cs₂ hrest c hc
          exact ⟨p', by simp [hp'], d', cs', hdoc, hmem⟩

theorem mkChunkAt_text_length (size : Nat) (source content : List Char)
    (σ : Nat → List Char) (s i : Nat) :
    (mkChunkAt size source content σ s i).text.length
      = min (s + size) content.length - s := by
  have h1 : min (s + size) content.length ≤ content.length := min_le_right _ _
  simp only [mkChunkAt, List.length_take, List.length_drop]
  omega

theorem head?_take_eq_some (k : Nat) (l : List Char) (c : Char)
    (h : (l.take k).head? = some c) : l.head? = some c := by
  cases k with
  | zero => simp at h
  | succ k' =>
    cases l with
    | nil => simp at h
    | cons a t => simpa using h

/-! ### Claim C7 -/

/-- Claim C7: for every chunk produced by `create_chunks` — in fact for
all chunks, the final chunk of a document included — the recorded
`end_char - start_char` equals the length of the chunk's text: the text
is exactly the slice `content[start_char:end_char]` and `end_char` is
already clipped to the content length. -/
theorem claim_C7_offsets (size overlap : Nat) (σ : Nat → Nat → List Char)
    (text : List Char) (fuel : Nat) (cs : List Chunk)
    (h : create_chunks size overlap σ text fuel = some cs) :
    ∀ c ∈ cs, c.metadata.end_char - c.metadata.start_char = c.text.length := by
  intro c hc
  obtain ⟨p, hp, d', cs', hdoc, hmem⟩ :=
    chunkCorpus_mem size overlap σ fuel (docPairs text) 0 cs h c hc
  unfold chunkDocument at hdoc
  obtain ⟨s, i, hcs, hslen, -, -⟩ :=
    chunkLoop_mem size overlap (pyStrip p.1) (pyStrip (reSubEnd p.2)) (σ d')
      fuel 0 0 cs' hdoc c hmem
  subst hcs
  rw [mkChunkAt_text_length]
  rfl

/-- Claim C7, witness: a concrete run over one document. -/
theorem claim_C7_witness :
    List.Forall (fun c => c.metadata.end_char - c.metadata.start_char = c.text.length)
      ((create_chunks 4 1 (fun _ _ => "aaaaaaaa".data)
        "--- START OF DOCUMENT: d ---\nab  cd ef\n--- END OF DOCUMENT: d ---\n".data
        40).getD []) :=
  List.forall_iff_forall_mem.mpr
    (claim_C7_offsets 4 1 (fun _ _ => "aaaaaaaa".data)
      "--- START OF DOCUMENT: d ---\nab  cd ef\n--- END OF DOCUMENT: d ---\n".data
      40 _ rfl)

/-! ### Claim C8 -/

/-- Claim C8: for every valid configuration and every input text, no chunk
produced by `create_chunks` begins with a whitespace character: the
first window starts on the stripped document content and every later
window position is the result of the whitespace skip. -/
theorem claim_C8_no_leading_whitespace (size overlap : Nat)
    (hov : overlap < size) (σ : Nat → Nat → List Char)
    (text : List Char) (fuel : Nat) (cs : List Chunk)
    (h : create_chunks size overlap σ text fuel = some cs) :
    ∀ c ∈ cs, ∀ ch, c.text.head? = some ch → pyIsSpace ch = false := by
  intro c hc ch hch
  obtain ⟨p, hp, d', cs', hdoc, hmem⟩ :=
    chunkCorpus_mem size overlap σ fuel (docPairs text) 0 cs h c hc
  unfold chunkDocument at hdoc
  obtain ⟨s, i, hcs, hslen, -, hor⟩ :=
    chunkLoop_mem size overlap (pyStrip p.1) (pyStrip (reSubEnd p.2)) (σ d')
      fuel 0 0 cs' hdoc c hmem
  subst hcs
  simp only [mkChunkAt] at hch
  have hdropHead : ((pyStrip (reSubEnd p.2)).drop s).head? = some ch :=
    head?_take_eq_some _ _ ch hch
  rcases hor with hor | ⟨j, hor⟩
  · subst hor
    rw [List.drop_zero] at hdropHead
    exact pyStrip_head (reSubEnd p.2) ch hdropHead
  · subst hor
    exact skipWs_head (pyStrip (reSubEnd p.2)) j ch hdropHead

/-- Claim C8, witness: a concrete run over a document with internal
whitespace. -/
theorem claim_C8_witness :
    List.Forall (fun c => ∀ ch, c.text.head? = some ch → pyIsSpace ch = false)
      ((create_chunks 4 1 (fun _ _ => "aaaaaaaa".data)
        "--- START OF DOCUMENT: d ---\nab  cd ef\n--- END OF DOCUMENT: d ---\n".data
        40).getD []) :=
  List.forall_iff_forall_mem.mpr
    (claim_C8_no_leading_whitespace 4 1 (by decide) (fun _ _ => "aaaaaaaa".data)
      "--- START OF DOCUMENT: d ---\nab  cd ef\n--- END OF DOCUMENT: d ---\n".data
      40 _ rfl)

/-! ### Claim C10 -/

/-- Claim C10: for every configuration with `chunk_size > 0` and every
input text, every chunk returned by `create_chunks` has non-empty text
of length at most `chunk_size`.  (For `chunk_overlap ≥ chunk_size` the
loop never returns, so the statement is vacuous there; whenever a chunk
list is returned, its chunks satisfy the bounds.) -/
theorem claim_C10_chunk_length_bounds (size overlap : Nat)
    (hsz : 1 ≤ size) (σ : Nat → Nat → List Char)
    (text : List Char) (fuel : Nat) (cs : List Chunk)
    (h : create_chunks size overlap σ text fuel = some cs) :
    ∀ c ∈ cs, 1 ≤ c.text.length ∧ c.text.length ≤ size := by
  intro c hc
  obtain ⟨p, hp, d', cs', hdoc, hmem⟩ :=
    chunkCorpus_mem size overlap σ fuel (docPairs text) 0 cs h c hc
  unfold chunkDocument at hdoc
  obtain ⟨s, i, hcs, hslen, -, -⟩ :=
    chunkLoop_mem size overlap (pyStrip p.1) (pyStrip (reSubEnd p.2)) (σ d')
      fuel 0 0 cs' hdoc c hmem
  subst hcs
  rw [mkChunkAt_text_length]
  have h1 : min (s + size) (pyStrip (reSubEnd p.2)).length ≤ s + size :=
    min_le_left _ _
  have h2 : s + 1 ≤ min (s + size) (pyStrip (reSubEnd p.2)).length := by
    have := hslen
    omega
  omega

/-- Claim C10, witness: a concrete run over one document. -/
theorem claim_C10_witness :
    List.Forall (fun c => 1 ≤ c.text.length ∧ c.text.length ≤ 4)
      ((create_chunks 4 1 (fun _ _ => "aaaaaaaa".data)
        "--- START OF DOCUMENT: d ---\nab  cd ef\n--- END OF DOCUMENT: d ---\n".data
        40).getD []) :=
  List.forall_iff_forall_mem.mpr
    (claim_C10_chunk_length_bounds 4 1 (by decide) (fun _ _ => "aaaaaaaa".data)
      "--- START OF DOCUMENT: d ---\nab  cd ef\n--- END OF DOCUMENT: d ---\n".data
      40 _ rfl)

/-! ### Claim C9 -/

/-- The suffix-independent observation of a chunk: its text and its full
metadata (source, chunk index, offsets, section).  Only the `id` field
is excluded, being the only part built from the random suffix. -/
def chunkCore (c : Chunk) : List Char × ChunkMeta := (c.text, c.metadata)

theorem chunkLoop_core_eq (size overlap : Nat) (source content : List Char)
    (σ₁ σ₂ : Nat → List Char) :
    ∀ (fuel start cid : Nat),
      (chunkLoop size overlap source content σ₁ fuel start cid).map (List.map chunkCore)
        = (chunkLoop size overlap source content σ₂ fuel start cid).map
            (List.map chunkCore) := by
  intro fuel
  induction fuel with
  | zero =>
    intro start cid
    by_cases hlt : start < content.length <;> simp [chunkLoop, hlt]
  | succ n ih =>
    intro start cid
    by_cases hlt : start < content.length
    · rw [chunkLoop_succ_of_lt size overlap source content σ₁ n start cid hlt,
        chunkLoop_succ_of_lt size overlap source content σ₂ n start cid hlt]
      have hrec := ih (skipWs content (start + (size - overlap))) (cid + 1)
      rcases h1 : chunkLoop size overlap source content σ₁ n
          (skipWs content (start + (size - overlap))) (cid + 1) with _ | cs₁ <;>
        rcases h2 : chunkLoop size overlap source content σ₂ n
          (skipWs content (start + (size - overlap))) (cid + 1) with _ | cs₂ <;>
        rw [h1, h2] at hrec <;> simp at hrec <;> simp [hrec]
      exact rfl
    · rw [chunkLoop_of_notLt size overlap source content σ₁ (n + 1) start cid hlt,
        chunkLoop_of_notLt size overlap source content σ₂ (n + 1) start cid hlt]

theorem chunkCorpus_core_eq (size overlap : Nat) (σ₁ σ₂ : Nat → Nat → List Char)
    (fuel : Nat) :
    ∀ (pairs : List (List Char × List Char)) (d : Nat),
      (chunkCorpus size overlap σ₁ fuel d pairs).map (List.map chunkCore)
        = (chunkCorpus size overlap σ₂ fuel d pairs).map (List.map chunkCore) := by
  intro pairs
  induction pairs with
  | nil => intro d; simp [chunkCorpus]
  | cons p rest ih =>
    intro d
    rcases p with ⟨f, co⟩
    simp only [chunkCorpus]
    have hdoc : (chunkDocument size overlap f co (σ₁ d) fuel).map (List.map chunkCore)
        = (chunkDocument size overlap f co (σ₂ d) fuel).map (List.map chunkCore) :=
      chunkLoop_core_eq size overlap (pyStrip f) (pyStrip (reSubEnd co))
        (σ₁ d) (σ₂ d) fuel 0 0
    have hrest := ih (d + 1)
    rcases h1 : chunkDocument size overlap f co (σ₁ d) fuel with _ | cs₁ <;>
      rcases h2 : chunkDocument size overlap f co (σ₂ d) fuel with _ | cs₂
    · simp
    · rw [h1, h2] at hdoc; simp at hdoc
    · rw [h1, h2] at hdoc; simp at hdoc
    · rw [h1, h2] at hdoc
      simp only [Option.map_some'] at hdoc
      rcases h3 : chunkCorpus size overlap σ₁ fuel (d + 1) rest with _ | css₁ <;>
        rcases h4 : chunkCorpus size overlap σ₂ fuel (d + 1) rest with _ | css₂
      · simp
      · rw [h3, h4] at hrest; simp at hrest
      · rw [h3, h4] at hrest; simp at hrest
      · rw [h3, h4] at hrest
        simp only [Option.map_some', Option.some.injEq] at hdoc hrest
        simp [hdoc, hrest]

/-- Claim C9: chunking is deterministic up to the random id suffix: two
runs of `create_chunks` on the same input text with the same
`(chunk_size, chunk_overlap)` configuration and the same fuel, differing
only in the drawn uuid suffixes, produce the same number of chunks with
pairwise equal texts and pairwise equal metadata (source, chunk index,
start and end offsets, section); only the ids may differ. -/
theorem claim_C9_deterministic_up_to_suffix (size overlap : Nat)
    (σ₁ σ₂ : Nat → Nat → List Char) (text : List Char) (fuel : Nat) :
    (create_chunks size overlap σ₁ text fuel).map (List.map chunkCore)
      = (create_chunks size overlap σ₂ text fuel).map (List.map chunkCore) :=
  chunkCorpus_core_eq size overlap σ₁ σ₂ fuel (docPairs text) 0

/-! ### Claim C2 -/

theorem attemptBatches_eq (ok : List Chunk → Bool) :
    ∀ (bs : List (List Chunk)),
      attemptBatches ok bs
        = bs.takeWhile ok ++ (bs.drop (bs.takeWhile ok).length).take 1 := by
  intro bs
  induction bs with
  | nil => simp [attemptBatches]
  | cons b rest ih =>
    by_cases hb : ok b
    · simp [attemptBatches, hb, List.takeWhile_cons_of_pos hb, ih]
    · simp [attemptBatches, hb, List.takeWhile_cons_of_neg]

/-- A chunk carrying only its index, used in the concrete write runs. -/
def cexChunk (i : Nat) : Chunk :=
  { id := [], text := [],
    metadata := { source := [], chunk_id := i, start_char := 0, end_char := 0,
                  sectionTitle := none } }

/-- A list of 250 chunks: three batches of 100, 100 and 50. -/
def cexChunks : List Chunk := (List.range 250).map cexChunk

/-- A store in which inserting any batch containing chunk number 100
(the second batch) raises, and every other insertion succeeds. -/
def cexOk : List Chunk → Bool := fun b => b.all (fun c => c.metadata.chunk_id != 100)

set_option maxRecDepth 8000 in
/-- Claim C2, counterexample: 250 chunks form three batches; insertion of
the second batch fails.  The write loop attempts only two batches — the
third is never attempted — because the whole loop sits inside a single
`try/except` (lines 364-392): the exception of one `collection.add`
aborts the function.  No aggregate success/failure count exists in the
code. -/
theorem claim_C2_counterexample :
    (create_vector_db cexOk cexChunks).length = 2
      ∧ (pyBatches cexChunks).length = 3 :=
  ⟨rfl, rfl⟩

/-- Claim C2, amended: batches are attempted strictly in order only up to
and including the first failing batch; every batch after the first
failure is never attempted (and the code reports no aggregate
succeeded/failed count — on failure it prints the exception once). -/
theorem claim_C2_first_failure_aborts_write (ok : List Chunk → Bool)
    (chunks : List Chunk) :
    create_vector_db ok chunks
      = (pyBatches chunks).takeWhile ok
        ++ ((pyBatches chunks).drop ((pyBatches chunks).takeWhile ok).length).take 1 :=
  attemptBatches_eq ok (pyBatches chunks)

/-! ### Claim C4 -/

/-- Claim C4, counterexample: the similarity printed by `query_example` is
`1 - distance` with no clipping; at distance `2` (possible under the
store's default squared-L2 metric) the reported similarity is negative,
contradicting `similarity ∈ [0, 1]`. -/
theorem claim_C4_counterexample : similarity 2 < 0 := by
  norm_num [similarity]

/-- Claim C4, amended: the reported similarity equals `1 - distance`,
which is a monotonic mapping (closer means higher similarity), but it is
not clipped to `[0, 1]`: for any distance above `1` the reported
similarity is negative. -/
theorem claim_C4_similarity_monotone_unclipped (d₁ d₂ : ℚ) (h : d₁ ≤ d₂) :
    similarity d₂ ≤ similarity d₁ ∧ (1 < d₂ → similarity d₂ < 0) := by
  unfold similarity
  constructor
  · linarith
  · intro h1
    linarith

/-- Claim C4, witness at distances `1` and `2`. -/
theorem claim_C4_witness : similarity 2 ≤ similarity 1 ∧ similarity 2 < 0 :=
  ⟨(claim_C4_similarity_monotone_unclipped 1 2 (by norm_num)).1,
   (claim_C4_similarity_monotone_unclipped 1 2 (by norm_num)).2 (by norm_num)⟩

/-! ### Claim C6: facts about the decimal representation used in ids -/

theorem digitChar_isDigit : ∀ m : Nat, m < 10 → (Nat.digitChar m).isDigit = true := by
  decide

/-- Numeric value of a decimal digit character. -/
def charVal (c : Char) : Nat := c.toNat - '0'.toNat

theorem charVal_digitChar : ∀ m : Nat, m < 10 → charVal (Nat.digitChar m) = m := by
  decide

/-- Value of a decimal digit string (most significant digit first). -/
def digitsVal (l : List Char) : Nat := l.foldl (fun a c => 10 * a + charVal c) 0

theorem digitsVal_append_one (xs : List Char) (c : Char) :
    digitsVal (xs ++ [c]) = 10 * digitsVal xs + charVal c := by
  simp [digitsVal, List.foldl_append]

theorem toDigitsCore_append (b' : Nat) : ∀ (fuel n : Nat) (ds : List Char),
    Nat.toDigitsCore b' fuel n ds = Nat.toDigitsCore b' fuel n [] ++ ds := by
  intro fuel
  induction fuel with
  | zero => intro n ds; simp [Nat.toDigitsCore]
  | succ k ih =>
    intro n ds
    simp only [Nat.toDigitsCore]
    by_cases h : n / b' = 0
    · simp [h]
    · rw [if_neg h, if_neg h,
        ih (n / b') (Nat.digitChar (n % b') :: ds),
        ih (n / b') [Nat.digitChar (n % b')]]
      simp

theorem toDigitsCore_fuel : ∀ (n f₁ f₂ : Nat), n < f₁ → n < f₂ →
    Nat.toDigitsCore 10 f₁ n [] = Nat.toDigitsCore 10 f₂ n [] := by
  intro n
  induction n using Nat.strong_induction_on with
  | _ n ih =>
    intro f₁ f₂ h₁ h₂
    obtain ⟨a, rfl⟩ : ∃ a, f₁ = a + 1 := ⟨f₁ - 1, by omega⟩
    obtain ⟨b, rfl⟩ : ∃ b, f₂ = b + 1 := ⟨f₂ - 1, by omega⟩
    simp only [Nat.toDigitsCore]
    by_cases h : n / 10 = 0
    · simp [h]
    · rw [if_neg h, if_neg h,
        toDigitsCore_append 10 a, toDigitsCore_append 10 b]
      have hlt : n / 10 < n := Nat.div_lt_self (by omega) (by omega)
      rw [ih (n / 10) hlt a b (by omega) (by omega)]

theorem digitsVal_toDigits : ∀ n : Nat, digitsVal (Nat.toDigits 10 n) = n := by
  intro n
  induction n using Nat.strong_induction_on with
  | _ n ih =>
    unfold Nat.toDigits
    simp only [Nat.toDigitsCore]
    by_cases h : n / 10 = 0
    · rw [if_pos h]
      have : digitsVal [Nat.digitChar (n % 10)] = charVal (Nat.digitChar (n % 10)) := by
        simp [digitsVal]
      rw [this, charVal_digitChar (n % 10) (by omega)]
      omega
    · rw [if_neg h, toDigitsCore_append]
      have hlt : n / 10 < n := Nat.div_lt_self (by omega) (by omega)
      have hfuel : Nat.toDigitsCore 10 n (n / 10) [] = Nat.toDigits 10 (n / 10) := by
        unfold Nat.toDigits
        exact toDigitsCore_fuel (n / 10) n (n / 10 + 1) (by omega) (by omega)
      rw [hfuel, digitsVal_append_one, ih (n / 10) hlt,
        charVal_digitChar (n % 10) (by omega)]
      omega

theorem toDigitsCore_digits : ∀ (fuel n : Nat) (ds : List Char),
    (∀ c ∈ ds, c.isDigit = true) →
    ∀ c ∈ Nat.toDigitsCore 10 fuel n ds, c.isDigit = true := by
  intro fuel
  induction fuel with
  | zero =>
    intro n ds hds c hc
    simp only [Nat.toDigitsCore] at hc
    exact hds c hc
  | succ k ih =>
    intro n ds hds c hc
    simp only [Nat.toDigitsCore] at hc
    by_cases h : n / 10 = 0
    · rw [if_pos h] at hc
      rcases List.mem_cons.mp hc with hc | hc
      · subst hc; exact digitChar_isDigit (n % 10) (by omega)
      · exact hds c hc
    · rw [if_neg h] at hc
      refine ih (n / 10) (Nat.digitChar (n % 10) :: ds) ?_ c hc
      intro c' hc'
      rcases List.mem_cons.mp hc' with hc' | hc'
      · subst hc'; exact digitChar_isDigit (n % 10) (by omega)
      · exact hds c' hc'

theorem natRepr_data (n : Nat) : (Nat.repr n).data = Nat.toDigits 10 n := rfl

theorem natRepr_data_inj (m n : Nat)
    (h : (Nat.repr m).data = (Nat.repr n).data) : m = n := by
  have hm := digitsVal_toDigits m
  have hn := digitsVal_toDigits n
  rw [natRepr_data, natRepr_data] at h
  rw [← hm, ← hn, h]

theorem natRepr_data_digits (n : Nat) : ∀ c ∈ (Nat.repr n).data, c.isDigit = true := by
  rw [natRepr_data]
  unfold Nat.toDigits
  exact toDigitsCore_digits (n + 1) n [] (by simp)

/-- If two lists each split as digits followed by a block starting with
an underscore, equality of the concatenations forces equality of the
parts: aligning from the left, the underscore can never land inside the
other side's digit run. -/
theorem digits_append_inj :
    ∀ (e₁ e₂ v₁ v₂ : List Char),
      (∀ c ∈ e₁, c.isDigit = true) → (∀ c ∈ e₂, c.isDigit = true) →
      v₁.head? = some '_' → v₂.head? = some '_' →
      e₁ ++ v₁ = e₂ ++ v₂ → e₁ = e₂ ∧ v₁ = v₂ := by
  intro e₁
  induction e₁ with
  | nil =>
    intro e₂ v₁ v₂ h₁ h₂ hv₁ hv₂ h
    cases e₂ with
    | nil => exact ⟨rfl, by simpa using h⟩
    | cons c t =>
      exfalso
      simp only [List.nil_append] at h
      rw [h] at hv₁
      have hc : c = '_' := by simpa using hv₁
      have hdig := h₂ c (by simp)
      rw [hc] at hdig
      exact absurd hdig (by decide)
  | cons c₁ t₁ ih =>
    intro e₂ v₁ v₂ h₁ h₂ hv₁ hv₂ h
    cases e₂ with
    | nil =>
      exfalso
      simp only [List.nil_append] at h
      rw [← h] at hv₂
      have hc : c₁ = '_' := by simpa using hv₂
      have hdig := h₁ c₁ (by simp)
      rw [hc] at hdig
      exact absurd hdig (by decide)
    | cons c₂ t₂ =>
      simp only [List.cons_append, List.cons.injEq] at h
      obtain ⟨hc, ht⟩ := h
      obtain ⟨he, hv⟩ := ih t₂ v₁ v₂ (fun c hc' => h₁ c (by simp [hc']))
        (fun c hc' => h₂ c (by simp [hc'])) hv₁ hv₂ ht
      exact ⟨by rw [hc, he], hv⟩

/-- Injectivity of the id format
`{source}_chunk_{chunk_id}_{suffix}` on the source and chunk index, for
suffixes of the fixed uuid-hex length 8. -/
theorem mkId_inj (f₁ f₂ s₁ s₂ : List Char) (c₁ c₂ : Nat)
    (h8₁ : s₁.length = 8) (h8₂ : s₂.length = 8)
    (h : mkId f₁ c₁ s₁ = mkId f₂ c₂ s₂) : f₁ = f₂ ∧ c₁ = c₂ := by
  unfold mkId at h
  have h' : (f₁ ++ "_chunk_".data ++ (Nat.repr c₁).data ++ "_".data) ++ s₁
      = (f₂ ++ "_chunk_".data ++ (Nat.repr c₂).data ++ "_".data) ++ s₂ := by
    simpa [List.append_assoc] using h
  obtain ⟨hA, hs⟩ := List.append_inj' h' (by rw [h8₁, h8₂])
  have h'' : (f₁ ++ "_chunk_".data ++ (Nat.repr c₁).data) ++ "_".data
      = (f₂ ++ "_chunk_".data ++ (Nat.repr c₂).data) ++ "_".data := by
    simpa [List.append_assoc] using hA
  obtain ⟨hB, -⟩ := List.append_inj' h'' rfl
  have hrev : (Nat.repr c₁).data.reverse ++ ("_chunk_".data.reverse ++ f₁.reverse)
      = (Nat.repr c₂).data.reverse ++ ("_chunk_".data.reverse ++ f₂.reverse) := by
    have hr := congrArg List.reverse hB
    simpa [List.reverse_append, List.append_assoc] using hr
  have hd₁ : ∀ c ∈ (Nat.repr c₁).data.reverse, c.isDigit = true := fun c hc =>
    natRepr_data_digits c₁ c (List.mem_reverse.mp hc)
  have hd₂ : ∀ c ∈ (Nat.repr c₂).data.reverse, c.isDigit = true := fun c hc =>
    natRepr_data_digits c₂ c (List.mem_reverse.mp hc)
  have hh₁ : ("_chunk_".data.reverse ++ f₁.reverse).head? = some '_' := rfl
  have hh₂ : ("_chunk_".data.reverse ++ f₂.reverse).head? = some '_' := rfl
  obtain ⟨hdeq, hfeq⟩ := digits_append_inj _ _ _ _ hd₁ hd₂ hh₁ hh₂ hrev
  have hdd : (Nat.repr c₁).data = (Nat.repr c₂).data := by
    have hr := congrArg List.reverse hdeq
    simpa using hr
  have hff : f₁ = f₂ := by
    have h1 := List.append_cancel_left hfeq
    have h2 := congrArg List.reverse h1
    simpa using h2
  exact ⟨hff, natRepr_data_inj _ _ hdd⟩

theorem mkChunkAt_id (size : Nat) (source content : List Char) (σ : Nat → List Char)
    (s i : Nat) : (mkChunkAt size source content σ s i).id = mkId source i (σ i) := rfl

theorem mkChunkAt_chunk_id (size : Nat) (source content : List Char)
    (σ : Nat → List Char) (s i : Nat) :
    (mkChunkAt size source content σ s i).metadata.chunk_id = i := rfl

theorem mkChunkAt_source (size : Nat) (source content : List Char)
    (σ : Nat → List Char) (s i : Nat) :
    (mkChunkAt size source content σ s i).metadata.source = source := rfl

/-- Shape of the chunks of one document: source and id fields follow the
id format, chunk indices start at `cid` and increase strictly along the
list. -/
theorem chunkLoop_ids (size overlap : Nat) (source content : List Char)
    (σ : Nat → List Char) :
    ∀ (fuel start cid : Nat) (cs : List Chunk),
      chunkLoop size overlap source content σ fuel start cid = some cs →
      (∀ c ∈ cs, c.metadata.source = source ∧ cid ≤ c.metadata.chunk_id ∧
        c.id = mkId source c.metadata.chunk_id (σ c.metadata.chunk_id)) ∧
      cs.Pairwise (fun a b => a.metadata.chunk_id < b.metadata.chunk_id) := by
  intro fuel
  induction fuel with
  | zero =>
    intro start cid cs h
    by_cases hlt : start < content.length
    · simp [chunkLoop, hlt] at h
    · simp [chunkLoop, hlt] at h
      subst h
      simp
  | succ n ih =>
    intro start cid cs h
    by_cases hlt : start < content.length
    · rw [chunkLoop_succ_of_lt size overlap source content σ n start cid hlt] at h
      rcases hr : chunkLoop size overlap source content σ n
          (skipWs content (start + (size - overlap))) (cid + 1) with _ | cs'
      · rw [hr] at h; simp at h
      · rw [hr] at h
        simp only [Option.some.injEq] at h
        subst h
        obtain ⟨hfacts, hpw⟩ := ih _ (cid + 1) cs' hr
        constructor
        · intro c hc
          rcases List.mem_cons.mp hc with hc | hc
          · subst hc
            exact ⟨rfl, le_refl _, rfl⟩
          · obtain ⟨h1, h2, h3⟩ := hfacts c hc
            exact ⟨h1, by omega, h3⟩
        · refine List.Pairwise.cons ?_ hpw
          intro b hb
          have h2 := (hfacts b hb).2.1
          rw [mkChunkAt_chunk_id]
          omega
    · rw [chunkLoop_of_notLt size overlap source content σ (n + 1) start cid hlt] at h
      simp only [Option.some.injEq] at h
      subst h
      simp

/-- Every chunk of the corpus has a source that is one of the stripped
filenames, and an id in the format `{source}_chunk_{index}_{suffix}`
with a suffix of length 8. -/
theorem chunkCorpus_id_shape (size overlap : Nat) (σ : Nat → Nat → List Char)
    (fuel : Nat) (h8 : ∀ d i, (σ d i).length = 8) :
    ∀ (pairs : List (List Char × List Char)) (d : Nat) (cs : List Chunk),
      chunkCorpus size overlap σ fuel d pairs = some cs →
      ∀ c ∈ cs, ∃ p ∈ pairs, ∃ s : List Char, c.metadata.source = pyStrip p.1 ∧
        s.length = 8 ∧ c.id = mkId c.metadata.source c.metadata.chunk_id s := by
  intro pairs d cs h c hc
  obtain ⟨p, hp, d', cs', hdoc, hmem⟩ :=
    chunkCorpus_mem size overlap σ fuel pairs d cs h c hc
  unfold chunkDocument at hdoc
  obtain ⟨hfacts, -⟩ := chunkLoop_ids size overlap (pyStrip p.1)
    (pyStrip (reSubEnd p.2)) (σ d') fuel 0 0 cs' hdoc
  obtain ⟨hsrc, -, hid⟩ := hfacts c hmem
  refine ⟨p, hp, σ d' c.metadata.chunk_id, hsrc, h8 d' _, ?_⟩
  rw [hsrc]
  exact hid

/-- Corpus-wide id uniqueness, given equal-length suffixes and pairwise
distinct stripped filenames. -/
theorem chunkCorpus_ids_unique (size overlap : Nat) (σ : Nat → Nat → List Char)
    (fuel : Nat) (h8 : ∀ d i, (σ d i).length = 8) :
    ∀ (pairs : List (List Char × List Char)) (d : Nat) (cs : List Chunk),
      (pairs.map (fun p => pyStrip p.1)).Pairwise (· ≠ ·) →
      chunkCorpus size overlap σ fuel d pairs = some cs →
      cs.Pairwise (fun a b => a.id ≠ b.id) := by
  intro pairs
  induction pairs with
  | nil =>
    intro d cs hdist h
    simp only [chunkCorpus, Option.some.injEq] at h
    subst h
    simp
  | cons p rest ih =>
    intro d cs hdist h
    rcases p with ⟨f, co⟩
    simp only [chunkCorpus] at h
    rcases hd : chunkDocument size overlap f co (σ d) fuel with _ | cs₁
    · rw [hd] at h; simp at h
    · rw [hd] at h
      rcases hrest : chunkCorpus size overlap σ fuel (d + 1) rest with _ | cs₂
      · rw [hrest] at h; simp at h
      · rw [hrest] at h
        simp only [Option.some.injEq] at h
        subst h
        rw [List.map_cons, List.pairwise_cons] at hdist
        obtain ⟨hhead, htail⟩ := hdist
        rw [List.pairwise_append]
        refine ⟨?_, ih (d + 1) cs₂ htail hrest, ?_⟩
        · unfold chunkDocument at hd
          obtain ⟨hfacts, hpw⟩ := chunkLoop_ids size overlap (pyStrip f)
            (pyStrip (reSubEnd co)) (σ d) fuel 0 0 cs₁ hd
          refine List.Pairwise.imp_of_mem ?_ hpw
          intro a b ha hb hlt heq
          obtain ⟨hsa, -, hida⟩ := hfacts a ha
          obtain ⟨hsb, -, hidb⟩ := hfacts b hb
          rw [hida, hidb] at heq
          obtain ⟨-, hcid⟩ := mkId_inj _ _ _ _ _ _ (h8 d _) (h8 d _) heq
          omega
        · intro a ha b hb heq
          unfold chunkDocument at hd
          obtain ⟨hfactsa, -⟩ := chunkLoop_ids size overlap (pyStrip f)
            (pyStrip (reSubEnd co)) (σ d) fuel 0 0 cs₁ hd
          obtain ⟨hsa, -, hida⟩ := hfactsa a ha
          obtain ⟨p2, hp2, s, hsb, hs8, hidb⟩ := chunkCorpus_id_shape size overlap σ
            fuel h8 rest (d + 1) cs₂ hrest b hb
          rw [hida, hidb] at heq
          obtain ⟨hfeq, -⟩ := mkId_inj _ _ _ _ _ _ (h8 d _) hs8 heq
          exact hhead (pyStrip p2.1) (List.mem_map.mpr ⟨p2, hp2, rfl⟩) (hfeq.trans hsb)

/-- The combined text of two documents that carry the same name `a`
(the filename captured by the marker regex). -/
def dupText : List Char :=
  ("--- START OF DOCUMENT: a ---\nHi\n--- END OF DOCUMENT: a ---\n"
    ++ "--- START OF DOCUMENT: a ---\nHi\n--- END OF DOCUMENT: a ---\n").data

/-- The combined text of two documents with distinct names `a`, `b`. -/
def w6Text : List Char :=
  ("--- START OF DOCUMENT: a ---\nHi\n--- END OF DOCUMENT: a ---\n"
    ++ "--- START OF DOCUMENT: b ---\nHo\n--- END OF DOCUMENT: b ---\n").data

/-- Claim C6, counterexample: on an input text containing two documents
with the same filename `a`, and a draw of random suffixes that repeats
`cccccccc` (each `uuid4().hex[:8]` draw is independent, so this draw has
positive probability), the two produced chunks carry the same id
`a_chunk_0_cccccccc`: ids are not pairwise distinct for every input text
and every choice of suffixes. -/
theorem claim_C6_counterexample :
    ((create_chunks 10 0 (fun _ _ => "cccccccc".data) dupText 40).getD []).map Chunk.id
      = ["a_chunk_0_cccccccc".data, "a_chunk_0_cccccccc".data] := by
  decide

/-- Claim C6, amended: in one run over a corpus whose (stripped) document
filenames are pairwise distinct — which holds for the pipeline's own
combined text, since the filenames are distinct basenames of one
directory — no two chunks share an id, for every choice of random
suffixes (all of length 8): the id embeds the source name and the chunk
index unambiguously. -/
theorem claim_C6_ids_pairwise_distinct (size overlap : Nat)
    (σ : Nat → Nat → List Char) (text : List Char) (fuel : Nat) (cs : List Chunk)
    (h8 : ∀ d i, (σ d i).length = 8)
    (hdist : ((docPairs text).map (fun p => pyStrip p.1)).Pairwise (· ≠ ·))
    (h : create_chunks size overlap σ text fuel = some cs) :
    cs.Pairwise (fun a b => a.id ≠ b.id) :=
  chunkCorpus_ids_unique size overlap σ fuel h8 (docPairs text) 0 cs hdist h

/-- Claim C6, witness: a concrete two-document corpus with distinct
filenames and constant suffixes. -/
theorem claim_C6_witness :
    ((create_chunks 10 0 (fun _ _ => "cccccccc".data) w6Text 40).getD []).Pairwise
      (fun a b => a.id ≠ b.id) :=
  claim_C6_ids_pairwise_distinct 10 0 (fun _ _ => "cccccccc".data) w6Text 40 _
    (fun _ _ => rfl) (by decide) rfl

end RagMain
